import Mathlib

/-!
Verification of the trash / soft-delete lifecycle and virtual path layer of
the Supabase-backed file manager (src/app.py), shallowly embedded in Lean.

Strings are modelled as lists of characters, object contents as lists of
bytes, and the storage bucket as an association list from keys to contents.
The Supabase storage client operations (list-by-prefix, upload, download,
remove) are modelled with the semantics the code relies on: list returns the
immediate children of a folder path (direct files, plus deduplicated folder
names inferred from deeper keys), upload without upsert fails on an existing
key, upload with upsert overwrites, remove deletes a key.
-/

abbrev Str := List Char

abbrev Content := List Nat

/-- Coerce a string literal to its character list. -/
def str (s : String) : Str := s.data

/-- Predicate: a path component contains no separator. -/
def NoSlash (n : Str) : Prop := '/' ∉ n

/-- Last path segment of a key, as in Python k.split('/')[-1] and
k.rsplit('/', 1)[-1]. -/
def basename (k : Str) : Str := (k.reverse.takeWhile (fun c => c ≠ '/')).reverse

/-- Everything before the last separator; empty when there is none, as in
parts[0] if len(parts) > 1 else "" after k.rsplit('/', 1) (rename_file). -/
def parentOf (k : Str) : Str := ((k.reverse.dropWhile (fun c => c ≠ '/')).drop 1).reverse

/-- Split a key into parent path and name (the rsplit-based inverse used by
rename_file). -/
def splitParentAndName (k : Str) : Str × Str := (parentOf k, basename k)

/-- Join a parent path and a name, as in f"{folder_path}/{name}" if
folder_path else name (upload_file, create_folder, list_files). -/
def resolve (p n : Str) : Str := if p = [] then n else p ++ '/' :: n

/-- First path segment of a key. -/
def firstSeg (k : Str) : Str := k.takeWhile (fun c => c ≠ '/')

/-- Association-list lookup by key (first match). -/
def findC : List (Str × Content) → Str → Option Content
  | [], _ => none
  | (k, c) :: rest, j => if j = k then some c else findC rest j

/-- Remove every pair with the given key. -/
def eraseKey : List (Str × Content) → Str → List (Str × Content)
  | [], _ => []
  | (k, c) :: rest, j => if k = j then eraseKey rest j else (k, c) :: eraseKey rest j

/-- The storage bucket: keys mapped to object contents. -/
structure Store where
  objs : List (Str × Content)
deriving DecidableEq

/-- Look up the content stored at a key. -/
def Store.find (s : Store) (k : Str) : Option Content := findC s.objs k

/-- Supabase remove([k]): delete the object at a key (no error if absent). -/
def Store.removeKey (s : Store) (k : Str) : Store := ⟨eraseKey s.objs k⟩

/-- Supabase upload with upsert true: overwrite any existing object. -/
def Store.upsert (s : Store) (k : Str) (c : Content) : Store :=
  ⟨eraseKey s.objs k ++ [(k, c)]⟩

/-- Supabase upload without upsert: fails (none) when the key exists. -/
def Store.uploadNew (s : Store) (k : Str) (c : Content) : Option Store :=
  match s.find k with
  | none => some ⟨s.objs ++ [(k, c)]⟩
  | some _ => none

/-- Remainder of a key below a folder path, when the key lies below it:
the Supabase list(folder) prefix test. An empty folder path matches every
key whole. -/
def underDir? (p k : Str) : Option Str :=
  if p = [] then some k
  else if k.take (p.length + 1) = p ++ ['/'] then some (k.drop (p.length + 1)) else none

/-- One row of a Supabase list(folder) result: a name, whether it is a
synthetic folder row (id is null), and the metadata size. -/
structure SBItem where
  name : Str
  isFolder : Bool
  size : Nat
deriving DecidableEq

/-- Rows for objects sitting directly in the listed folder. -/
def directItems (s : Store) (p : Str) : List SBItem :=
  s.objs.filterMap (fun kc =>
    match underDir? p kc.1 with
    | some r => if r ≠ [] ∧ ¬ ('/' ∈ r) then some ⟨r, false, kc.2.length⟩ else none
    | none => none)

/-- Names of synthetic folder rows: first segments of deeper keys,
deduplicated. -/
def folderNames (s : Store) (p : Str) : List Str :=
  (s.objs.filterMap (fun kc =>
    match underDir? p kc.1 with
    | some r => if '/' ∈ r then some (firstSeg r) else none
    | none => none)).dedup

/-- The Supabase storage list(folder) call: immediate children only. -/
def sbList (s : Store) (p : Str) : List SBItem :=
  directItems s p ++ (folderNames s p).map (fun nm => ⟨nm, true, 0⟩)

/-- An item of the list built by list_files in src/app.py: name, kind,
full path (the id field duplicates path and is omitted), and size
(none rendered as N/A for folders). -/
structure Entry where
  name : Str
  isFolder : Bool
  path : Str
  size : Option Nat
deriving DecidableEq

/-- Build the list_files dict for one listing row. -/
def entryOfItem (p : Str) (i : SBItem) : Entry :=
  ⟨i.name, i.isFolder, resolve p i.name, if i.isFolder then none else some i.size⟩

/-- Python name.lower() restricted to the ASCII case mapping. -/
def pyLower (s : Str) : Str := s.map Char.toLower

/-- Sort rank from the code's key: 0 if folder else 1. -/
def Entry.rank (e : Entry) : Nat := if e.isFolder then 0 else 1

/-- The comparison induced by items.sort(key=lambda x: (0 if folder else 1,
x['name'].lower())): lexicographic on the rank and the lowercased name. -/
def entryLE (a b : Entry) : Prop :=
  a.rank < b.rank ∨ (a.rank = b.rank ∧ pyLower a.name ≤ pyLower b.name)

instance : DecidableRel entryLE := fun a b =>
  inferInstanceAs (Decidable
    (a.rank < b.rank ∨ (a.rank = b.rank ∧ pyLower a.name ≤ pyLower b.name)))

instance : IsTotal Entry entryLE :=
  ⟨by
    intro a b
    rcases Nat.lt_trichotomy a.rank b.rank with h | h | h
    · exact Or.inl (Or.inl h)
    · rcases le_total (pyLower a.name) (pyLower b.name) with h2 | h2
      · exact Or.inl (Or.inr ⟨h, h2⟩)
      · exact Or.inr (Or.inr ⟨h.symm, h2⟩)
    · exact Or.inr (Or.inl h)⟩

instance : IsTrans Entry entryLE :=
  ⟨by
    intro a b c hab hbc
    rcases hab with h1 | ⟨h1, h1p⟩ <;> rcases hbc with h2 | ⟨h2, h2p⟩
    · exact Or.inl (h1.trans h2)
    · exact Or.inl (h2 ▸ h1)
    · exact Or.inl (h1 ▸ h2)
    · exact Or.inr ⟨h1.trans h2, le_trans h1p h2p⟩⟩

/-- The list_files function of src/app.py: Supabase listing mapped to entry
dicts and sorted folders-first with case-insensitive name tie-break (the
Python stable sort is modelled by insertion sort, which is also stable). -/
def list_files (s : Store) (p : Str) : List Entry :=
  List.insertionSort entryLE ((sbList s p).map (entryOfItem p))

/-- Whether a name begins with a dot (Python name.startswith('.')). -/
def startsWithDot : Str → Bool
  | [] => false
  | c :: _ => c = '.'

/-- The entries actually rendered by render_file_list: list_files output with
dot-named entries (placeholders such as .keep, and the .trash folder at the
root) filtered out. -/
def rendered_file_list (s : Store) (p : Str) : List Entry :=
  (list_files s p).filter (fun e => !startsWithDot e.name)

/-- Trash key for a basename: ".trash/" + filename. -/
def trashKey (nm : Str) : Str := str ".trash" ++ '/' :: nm

/-- The move_to_trash function of src/app.py: download, upload the content
under .trash/basename with upsert, remove the original. A failing download
(missing key) is caught and reported as False with the store unchanged. -/
def move_to_trash (s : Store) (k : Str) : Bool × Store :=
  match s.find k with
  | none => (false, s)
  | some c => (true, (s.upsert (trashKey (basename k)) c).removeKey k)

/-- The restore_from_trash function of src/app.py: download the trash object,
upload its content at the bare filename (the bucket root) with upsert, then
remove the trash key. -/
def restore_from_trash (s : Store) (t : Str) : Bool × Store :=
  match s.find t with
  | none => (false, s)
  | some c => (true, (s.upsert (basename t) c).removeKey t)

/-- The list_trash function of src/app.py: list the .trash folder and skip
dot-named rows. -/
def list_trash (s : Store) : List SBItem :=
  (sbList s (str ".trash")).filter (fun it => !startsWithDot it.name)

/-- Sequential removal loop with a transient-failure oracle: the first key
whose removal fails raises, the surrounding except returns False with the
store as left by the completed removals. -/
def removeLoop (fail : Str → Bool) : Store → List Str → Bool × Store
  | s, [] => (true, s)
  | s, k :: rest => if fail k then (false, s) else removeLoop fail (s.removeKey k) rest

/-- The empty_trash function of src/app.py with a failure oracle on the
per-item remove calls: list .trash once, then remove ".trash/" + name for
each row in order inside one try/except. -/
def empty_trash_f (fail : Str → Bool) (s : Store) : Bool × Store :=
  removeLoop fail s ((sbList s (str ".trash")).map (fun it => trashKey it.name))

/-- The empty_trash function when every store call succeeds. -/
def empty_trash (s : Store) : Bool × Store := empty_trash_f (fun _ => false) s

/-- The delete_folder function of src/app.py: list the folder (immediate
children only) and remove folder_path + "/" + name for each row. -/
def delete_folder (s : Store) (p : Str) : Bool × Store :=
  (true, (((sbList s p).map (fun it => p ++ '/' :: it.name)).foldl Store.removeKey s))

/-- The create_folder function of src/app.py: upload an empty placeholder at
folder_path + "/.keep" without upsert; a duplicate raises, is caught, and
False is returned. -/
def create_folder (s : Store) (folderName parent : Str) : Bool × Store :=
  match s.uploadNew (resolve parent folderName ++ str "/.keep") [] with
  | some s1 => (true, s1)
  | none => (false, s)

/-- One Supabase storage call made by rename_file, identified by its kind and
target key. -/
inductive StoreOp
  | download : Str → StoreOp
  | upload : Str → StoreOp
  | remove : Str → StoreOp
deriving DecidableEq

/-- The rename_file function of src/app.py with a transient-failure oracle,
also recording the trace of attempted store calls: download the old key,
upload its content at the new key (no upsert, so an existing key raises),
remove the old key; any raise is caught and False returned. -/
def rename_file (fail : StoreOp → Bool) (s : Store) (oldPath newName : Str) :
    Bool × Store × List StoreOp :=
  if fail (StoreOp.download oldPath) then (false, s, [StoreOp.download oldPath])
  else match s.find oldPath with
  | none => (false, s, [StoreOp.download oldPath])
  | some c =>
    if fail (StoreOp.upload (resolve (parentOf oldPath) newName)) then
      (false, s, [StoreOp.download oldPath,
                  StoreOp.upload (resolve (parentOf oldPath) newName)])
    else match s.uploadNew (resolve (parentOf oldPath) newName) c with
    | none => (false, s, [StoreOp.download oldPath,
                          StoreOp.upload (resolve (parentOf oldPath) newName)])
    | some s1 =>
      if fail (StoreOp.remove oldPath) then
        (false, s1, [StoreOp.download oldPath,
                     StoreOp.upload (resolve (parentOf oldPath) newName),
                     StoreOp.remove oldPath])
      else
        (true, s1.removeKey oldPath,
          [StoreOp.download oldPath,
           StoreOp.upload (resolve (parentOf oldPath) newName),
           StoreOp.remove oldPath])

/-! Helper lemmas on paths. -/

instance : DecidablePred NoSlash := fun n =>
  inferInstanceAs (Decidable ('/' ∉ n))

/-- Predicate: no two adjacent separators anywhere in the path. -/
def NoDoubleSlash (p : Str) : Prop :=
  p.Chain' (fun a b => ¬(a = '/' ∧ b = '/'))

instance : DecidablePred NoDoubleSlash := fun p =>
  inferInstanceAs (Decidable (p.Chain' (fun a b => ¬(a = '/' ∧ b = '/'))))

/-- Predicate: a well-formed parent path has no leading, trailing, or doubled
separator. -/
def ValidPath (p : Str) : Prop :=
  p.head? ≠ some '/' ∧ p.getLast? ≠ some '/' ∧ NoDoubleSlash p

instance : DecidablePred ValidPath := fun p =>
  inferInstanceAs (Decidable
    (p.head? ≠ some '/' ∧ p.getLast? ≠ some '/' ∧ NoDoubleSlash p))

lemma takeWhile_all (l : Str) (h : NoSlash l) :
    l.takeWhile (fun c => c ≠ '/') = l := by
  induction l with
  | nil => rfl
  | cons a l ih =>
    have ha : a ≠ '/' := fun hc => h (hc ▸ List.mem_cons_self a l)
    have h' : NoSlash l := fun hc => h (List.mem_cons_of_mem a hc)
    rw [List.takeWhile_cons_of_pos (by simpa using ha), ih h']

lemma dropWhile_all (l : Str) (h : NoSlash l) :
    l.dropWhile (fun c => c ≠ '/') = [] := by
  induction l with
  | nil => rfl
  | cons a l ih =>
    have ha : a ≠ '/' := fun hc => h (hc ▸ List.mem_cons_self a l)
    have h' : NoSlash l := fun hc => h (List.mem_cons_of_mem a hc)
    rw [List.dropWhile_cons_of_pos (by simpa using ha)]
    exact ih h'

lemma takeWhile_append_slash (l r : Str) (h : NoSlash l) :
    (l ++ '/' :: r).takeWhile (fun c => c ≠ '/') = l := by
  induction l with
  | nil =>
    rw [List.nil_append, List.takeWhile_cons_of_neg (by simp)]
  | cons a l ih =>
    have ha : a ≠ '/' := fun hc => h (hc ▸ List.mem_cons_self a l)
    have h' : NoSlash l := fun hc => h (List.mem_cons_of_mem a hc)
    rw [List.cons_append, List.takeWhile_cons_of_pos (by simpa using ha), ih h']

lemma dropWhile_append_slash (l r : Str) (h : NoSlash l) :
    (l ++ '/' :: r).dropWhile (fun c => c ≠ '/') = '/' :: r := by
  induction l with
  | nil =>
    rw [List.nil_append, List.dropWhile_cons_of_neg (by simp)]
  | cons a l ih =>
    have ha : a ≠ '/' := fun hc => h (hc ▸ List.mem_cons_self a l)
    have h' : NoSlash l := fun hc => h (List.mem_cons_of_mem a hc)
    rw [List.cons_append, List.dropWhile_cons_of_pos (by simpa using ha)]
    exact ih h'

lemma noSlash_reverse {l : Str} (h : NoSlash l) : NoSlash l.reverse := by
  intro hc; exact h (List.mem_reverse.mp hc)

lemma basename_noSlash (k : Str) (h : NoSlash k) : basename k = k := by
  unfold basename
  rw [takeWhile_all _ (noSlash_reverse h), List.reverse_reverse]

lemma basename_append (p n : Str) (h : NoSlash n) :
    basename (p ++ '/' :: n) = n := by
  unfold basename
  have : (p ++ '/' :: n).reverse = n.reverse ++ '/' :: p.reverse := by
    simp
  rw [this, takeWhile_append_slash _ _ (noSlash_reverse h), List.reverse_reverse]

lemma parentOf_append (p n : Str) (h : NoSlash n) :
    parentOf (p ++ '/' :: n) = p := by
  unfold parentOf
  have : (p ++ '/' :: n).reverse = n.reverse ++ '/' :: p.reverse := by
    simp
  rw [this, dropWhile_append_slash _ _ (noSlash_reverse h)]
  simp

lemma parentOf_noSlash (k : Str) (h : NoSlash k) : parentOf k = [] := by
  unfold parentOf
  rw [dropWhile_all _ (noSlash_reverse h)]
  rfl

lemma basename_trashKey (nm : Str) (h : NoSlash nm) : basename (trashKey nm) = nm :=
  basename_append _ _ h

lemma firstSeg_append (p n : Str) : firstSeg (p ++ '/' :: n) = firstSeg p := by
  induction p with
  | nil => simp [firstSeg, List.takeWhile_cons]
  | cons a p ih =>
    by_cases ha : a = '/'
    · simp [firstSeg, List.takeWhile_cons, ha]
    · simpa [firstSeg, List.takeWhile_cons, ha] using ih

lemma firstSeg_noSlash (k : Str) (h : NoSlash k) : firstSeg k = k :=
  takeWhile_all k h

lemma noSlash_firstSeg (k : Str) : NoSlash (firstSeg k) := by
  intro hc
  have := List.mem_takeWhile_imp hc
  simp at this

lemma noDoubleSlash_of_noSlash {l : Str} (h : NoSlash l) : NoDoubleSlash l := by
  induction l with
  | nil => exact List.chain'_nil
  | cons a l ih =>
    have ha : a ≠ '/' := fun hc => h (hc ▸ List.mem_cons_self a l)
    have h' : NoSlash l := fun hc => h (List.mem_cons_of_mem a hc)
    cases l with
    | nil => simp [NoDoubleSlash]
    | cons b l' =>
      refine List.chain'_cons.mpr ⟨fun hab => ha hab.1, ih h'⟩

lemma noDoubleSlash_resolve (p n : Str) (hn : NoSlash n) (hp : ValidPath p) :
    NoDoubleSlash (resolve p n) := by
  unfold resolve
  by_cases hpe : p = []
  · simp only [hpe, if_pos rfl]
    exact noDoubleSlash_of_noSlash hn
  · rw [if_neg hpe]
    refine List.chain'_append.mpr ⟨hp.2.2, ?_, ?_⟩
    · cases n with
      | nil => simp [NoDoubleSlash]
      | cons b n' =>
        refine List.chain'_cons.mpr ⟨?_, ?_⟩
        · intro hc
          exact hn (hc.2 ▸ List.mem_cons_self b n')
        · exact noDoubleSlash_of_noSlash hn
    · intro x hx y hy hxy
      exact hp.2.1 (by rw [hx]; exact congrArg _ hxy.1)

/-- C7: resolve followed by splitParentAndName is the identity on valid
(parentPath, name) pairs; resolve leaves the name unchanged on an empty
parent, and produces no leading and no doubled separators. -/
theorem resolve_splitParentAndName_round_trip (p n : Str)
    (hn : NoSlash n) (hne : n ≠ []) (hp : ValidPath p) :
    splitParentAndName (resolve p n) = (p, n) ∧
    resolve [] n = n ∧
    (resolve p n).head? ≠ some '/' ∧
    NoDoubleSlash (resolve p n) := by
  refine ⟨?_, rfl, ?_, noDoubleSlash_resolve p n hn hp⟩
  · unfold splitParentAndName resolve
    by_cases hpe : p = []
    · rw [if_pos hpe, parentOf_noSlash n hn, basename_noSlash n hn, hpe]
    · rw [if_neg hpe, parentOf_append p n hn, basename_append p n hn]
  · unfold resolve
    by_cases hpe : p = []
    · rw [if_pos hpe]
      cases n with
      | nil => exact absurd rfl hne
      | cons b n' =>
        intro hc
        have : b = '/' := by simpa using hc
        exact hn (this ▸ List.mem_cons_self b n')
    · rw [if_neg hpe]
      cases p with
      | nil => exact absurd rfl hpe
      | cons a p' =>
        intro hc
        have : a = '/' := by simpa using hc
        exact hp.1 (by simpa using this)

/-- Witness for C7 at a concrete pair. -/
theorem resolve_splitParentAndName_round_trip_witness :
    splitParentAndName (resolve (str "docs") (str "a.txt")) = (str "docs", str "a.txt") :=
  (resolve_splitParentAndName_round_trip (str "docs") (str "a.txt")
    (by decide) (by decide)
    ⟨by decide, by decide, noDoubleSlash_of_noSlash (by decide)⟩).1


/-! Helper lemmas on the store. -/

lemma findC_append_of_some {l₁ : List (Str × Content)} (l₂ : List (Str × Content))
    {j : Str} {c : Content} (h : findC l₁ j = some c) :
    findC (l₁ ++ l₂) j = some c := by
  induction l₁ with
  | nil => cases h
  | cons kc rest ih =>
    obtain ⟨k, c'⟩ := kc
    simp only [findC] at h
    rw [List.cons_append]
    simp only [findC]
    by_cases hjk : j = k
    · rw [if_pos hjk] at h ⊢
      exact h
    · rw [if_neg hjk] at h ⊢
      exact ih h

lemma findC_append_of_none {l₁ : List (Str × Content)} (l₂ : List (Str × Content))
    {j : Str} (h : findC l₁ j = none) :
    findC (l₁ ++ l₂) j = findC l₂ j := by
  induction l₁ with
  | nil => rfl
  | cons kc rest ih =>
    obtain ⟨k, c'⟩ := kc
    simp only [findC] at h
    rw [List.cons_append]
    simp only [findC]
    by_cases hjk : j = k
    · rw [if_pos hjk] at h
      cases h
    · rw [if_neg hjk] at h ⊢
      exact ih h

lemma findC_eraseKey_self (l : List (Str × Content)) (k : Str) :
    findC (eraseKey l k) k = none := by
  induction l with
  | nil => rfl
  | cons kc rest ih =>
    obtain ⟨k', c⟩ := kc
    simp only [eraseKey]
    by_cases h : k' = k
    · rw [if_pos h]
      exact ih
    · rw [if_neg h]
      simp only [findC]
      rw [if_neg (fun hh : k = k' => h hh.symm)]
      exact ih

lemma findC_eraseKey_ne (l : List (Str × Content)) {j k : Str} (h : j ≠ k) :
    findC (eraseKey l k) j = findC l j := by
  induction l with
  | nil => rfl
  | cons kc rest ih =>
    obtain ⟨k', c⟩ := kc
    simp only [eraseKey]
    by_cases hk : k' = k
    · rw [if_pos hk]
      simp only [findC]
      rw [if_neg (fun hj : j = k' => h (hj.trans hk))]
      exact ih
    · rw [if_neg hk]
      simp only [findC]
      by_cases hj : j = k'
      · rw [if_pos hj, if_pos hj]
      · rw [if_neg hj, if_neg hj]
        exact ih

lemma mem_of_mem_eraseKey {l : List (Str × Content)} {j k : Str} {c : Content}
    (hm : (j, c) ∈ eraseKey l k) : (j, c) ∈ l := by
  induction l with
  | nil => cases hm
  | cons kc rest ih =>
    obtain ⟨k', c'⟩ := kc
    simp only [eraseKey] at hm
    by_cases h : k' = k
    · rw [if_pos h] at hm
      exact List.mem_cons_of_mem _ (ih hm)
    · rw [if_neg h] at hm
      rcases List.mem_cons.mp hm with h' | h'
      · exact h' ▸ List.mem_cons_self _ _
      · exact List.mem_cons_of_mem _ (ih h')

lemma mem_eraseKey_of_ne {l : List (Str × Content)} {j k : Str} {c : Content}
    (h : j ≠ k) (hm : (j, c) ∈ l) : (j, c) ∈ eraseKey l k := by
  induction l with
  | nil => cases hm
  | cons kc rest ih =>
    obtain ⟨k', c'⟩ := kc
    simp only [eraseKey]
    rcases List.mem_cons.mp hm with h' | h'
    · have hj : k' = j := congrArg Prod.fst h'.symm
      rw [if_neg (fun he : k' = k => h (hj ▸ he))]
      exact h' ▸ List.mem_cons_self _ _
    · by_cases hk : k' = k
      · rw [if_pos hk]
        exact ih h'
      · rw [if_neg hk]
        exact List.mem_cons_of_mem _ (ih h')

lemma not_mem_eraseKey_self {l : List (Str × Content)} {k : Str} {c : Content} :
    (k, c) ∉ eraseKey l k := by
  induction l with
  | nil => exact List.not_mem_nil _
  | cons kc rest ih =>
    obtain ⟨k', c'⟩ := kc
    simp only [eraseKey]
    by_cases h : k' = k
    · rw [if_pos h]
      exact ih
    · rw [if_neg h]
      intro hm
      rcases List.mem_cons.mp hm with h' | h'
      · exact h (congrArg Prod.fst h'.symm)
      · exact ih h'

lemma findC_some_mem {l : List (Str × Content)} {k : Str} {c : Content}
    (h : findC l k = some c) : (k, c) ∈ l := by
  induction l with
  | nil => cases h
  | cons kc rest ih =>
    obtain ⟨k', c'⟩ := kc
    simp only [findC] at h
    by_cases hjk : k = k'
    · rw [if_pos hjk] at h
      obtain rfl := Option.some_inj.mp h
      rw [hjk]
      exact List.mem_cons_self _ _
    · rw [if_neg hjk] at h
      exact List.mem_cons_of_mem _ (ih h)

lemma Store.find_upsert_self (s : Store) (k : Str) (c : Content) :
    (s.upsert k c).find k = some c := by
  show findC (eraseKey s.objs k ++ [(k, c)]) k = some c
  rw [findC_append_of_none _ (findC_eraseKey_self s.objs k)]
  simp [findC]

lemma Store.find_upsert_ne (s : Store) {j k : Str} (c : Content) (h : j ≠ k) :
    (s.upsert k c).find j = s.find j := by
  show findC (eraseKey s.objs k ++ [(k, c)]) j = findC s.objs j
  have he := findC_eraseKey_ne s.objs h
  cases hv : findC (eraseKey s.objs k) j with
  | some c' =>
    rw [findC_append_of_some _ hv, ← he, hv]
  | none =>
    rw [findC_append_of_none _ hv, ← he, hv]
    simp only [findC]
    rw [if_neg h]

lemma Store.find_removeKey_self (s : Store) (k : Str) :
    (s.removeKey k).find k = none :=
  findC_eraseKey_self s.objs k

lemma Store.find_removeKey_ne (s : Store) {j k : Str} (h : j ≠ k) :
    (s.removeKey k).find j = s.find j :=
  findC_eraseKey_ne s.objs h

lemma Store.mem_upsert_self (s : Store) (k : Str) (c : Content) :
    (k, c) ∈ (s.upsert k c).objs :=
  List.mem_append_right _ (List.mem_singleton.mpr rfl)

lemma Store.mem_removeKey_of_ne {s : Store} {j k : Str} {c : Content}
    (h : j ≠ k) (hm : (j, c) ∈ s.objs) : (j, c) ∈ (s.removeKey k).objs :=
  mem_eraseKey_of_ne h hm

lemma find_foldl_removeKey_none (ks : List Str) (s : Store) (k : Str)
    (h : s.find k = none) : (ks.foldl Store.removeKey s).find k = none := by
  induction ks generalizing s with
  | nil => exact h
  | cons a ks ih =>
    rw [List.foldl_cons]
    apply ih
    by_cases hak : k = a
    · rw [hak]
      exact Store.find_removeKey_self s a
    · rw [Store.find_removeKey_ne s hak]
      exact h

lemma find_foldl_removeKey_of_mem (ks : List Str) (s : Store) (k : Str)
    (h : k ∈ ks) : (ks.foldl Store.removeKey s).find k = none := by
  induction ks generalizing s with
  | nil => cases h
  | cons a ks ih =>
    rw [List.foldl_cons]
    by_cases hak : k = a
    · apply find_foldl_removeKey_none
      rw [hak]
      exact Store.find_removeKey_self s a
    · rcases List.mem_cons.mp h with h' | h'
      · exact absurd h' hak
      · exact ih (s.removeKey a) h'

lemma find_foldl_removeKey_of_not_mem (ks : List Str) (s : Store) (k : Str)
    (h : k ∉ ks) : (ks.foldl Store.removeKey s).find k = s.find k := by
  induction ks generalizing s with
  | nil => rfl
  | cons a ks ih =>
    rw [List.foldl_cons,
        ih (s.removeKey a) (fun hm => h (List.mem_cons_of_mem a hm)),
        Store.find_removeKey_ne s (fun he : k = a => h (he ▸ List.mem_cons_self a ks))]

/-! Helper lemmas on the listing. -/

lemma underDir?_nil (k : Str) : underDir? [] k = some k := by
  unfold underDir?
  rw [if_pos rfl]

lemma underDir?_append (p r : Str) (hp : p ≠ []) :
    underDir? p (p ++ '/' :: r) = some r := by
  have h1 : (p ++ '/' :: r) = (p ++ ['/']) ++ r := by simp
  have hl : (p ++ ['/']).length = p.length + 1 := by simp
  have ht : (p ++ '/' :: r).take (p.length + 1) = p ++ ['/'] := by
    rw [h1, ← hl, List.take_left]
  have hd : (p ++ '/' :: r).drop (p.length + 1) = r := by
    rw [h1, ← hl, List.drop_left]
  unfold underDir?
  rw [if_neg hp, if_pos ht, hd]

lemma underDir?_eq {p k r : Str} (h : underDir? p k = some r) :
    (p = [] ∧ k = r) ∨ (p ≠ [] ∧ k = p ++ '/' :: r) := by
  unfold underDir? at h
  by_cases hp : p = []
  · rw [if_pos hp] at h
    exact Or.inl ⟨hp, Option.some_inj.mp h⟩
  · rw [if_neg hp] at h
    by_cases hc : k.take (p.length + 1) = p ++ ['/']
    · rw [if_pos hc, Option.some_inj] at h
      refine Or.inr ⟨hp, ?_⟩
      have hk := (List.take_append_drop (p.length + 1) k).symm
      rw [hc, h] at hk
      rw [hk]
      simp
    · rw [if_neg hc] at h
      cases h

lemma mem_directItems_intro {s : Store} {p k : Str} {c : Content} {r : Str}
    (hmem : (k, c) ∈ s.objs) (hu : underDir? p k = some r)
    (hne : r ≠ []) (hns : NoSlash r) :
    (⟨r, false, c.length⟩ : SBItem) ∈ directItems s p := by
  refine List.mem_filterMap.mpr ⟨(k, c), hmem, ?_⟩
  simp [hu, hne]
  exact hns

lemma mem_folderNames_intro {s : Store} {p k : Str} {c : Content} {r : Str}
    (hmem : (k, c) ∈ s.objs) (hu : underDir? p k = some r) (hs : '/' ∈ r) :
    firstSeg r ∈ folderNames s p := by
  unfold folderNames
  rw [List.mem_dedup]
  refine List.mem_filterMap.mpr ⟨(k, c), hmem, ?_⟩
  simp [hu, hs]

lemma mem_sbList_file {s : Store} {p k : Str} {c : Content} {r : Str}
    (hmem : (k, c) ∈ s.objs) (hu : underDir? p k = some r)
    (hne : r ≠ []) (hns : NoSlash r) :
    (⟨r, false, c.length⟩ : SBItem) ∈ sbList s p :=
  List.mem_append_left _ (mem_directItems_intro hmem hu hne hns)

lemma mem_sbList_folder {s : Store} {p k : Str} {c : Content} {r : Str}
    (hmem : (k, c) ∈ s.objs) (hu : underDir? p k = some r) (hs : '/' ∈ r) :
    (⟨firstSeg r, true, 0⟩ : SBItem) ∈ sbList s p :=
  List.mem_append_right _
    (List.mem_map.mpr ⟨firstSeg r, mem_folderNames_intro hmem hu hs, rfl⟩)

lemma sbList_elim {s : Store} {p : Str} {it : SBItem} (h : it ∈ sbList s p) :
    ∃ k c r, (k, c) ∈ s.objs ∧ underDir? p k = some r ∧
      ((it.isFolder = false ∧ it.name = r ∧ it.size = c.length ∧ r ≠ [] ∧ NoSlash r) ∨
       (it.isFolder = true ∧ '/' ∈ r ∧ it.name = firstSeg r)) := by
  rcases List.mem_append.mp h with h | h
  · obtain ⟨⟨k, c⟩, hm, he⟩ := List.mem_filterMap.mp h
    cases hu : underDir? p k with
    | none => simp [hu] at he
    | some r =>
      simp only [hu] at he
      by_cases hcond : r ≠ [] ∧ ¬ ('/' ∈ r)
      · rw [if_pos hcond] at he
        obtain rfl := Option.some_inj.mp he
        exact ⟨k, c, r, hm, hu, Or.inl ⟨rfl, rfl, rfl, hcond.1, hcond.2⟩⟩
      · rw [if_neg hcond] at he
        cases he
  · obtain ⟨nm, hnm, he⟩ := List.mem_map.mp h
    unfold folderNames at hnm
    obtain ⟨⟨k, c⟩, hm, he2⟩ := List.mem_filterMap.mp (List.mem_dedup.mp hnm)
    cases hu : underDir? p k with
    | none => simp [hu] at he2
    | some r =>
      simp only [hu] at he2
      by_cases hs : '/' ∈ r
      · rw [if_pos hs] at he2
        obtain rfl := Option.some_inj.mp he2
        obtain rfl := he
        exact ⟨k, c, r, hm, hu, Or.inr ⟨rfl, hs, rfl⟩⟩
      · rw [if_neg hs] at he2
        cases he2

lemma sbList_name_noSlash {s : Store} {p : Str} {it : SBItem}
    (h : it ∈ sbList s p) : NoSlash it.name := by
  obtain ⟨k, c, r, _, _, hcase⟩ := sbList_elim h
  rcases hcase with ⟨_, hn, _, _, hns⟩ | ⟨_, _, hn⟩
  · exact hn ▸ hns
  · exact hn ▸ noSlash_firstSeg r

lemma mem_list_files_iff {s : Store} {p : Str} {e : Entry} :
    e ∈ list_files s p ↔ e ∈ (sbList s p).map (entryOfItem p) :=
  (List.perm_insertionSort entryLE _).mem_iff

lemma firstSeg_trashKey (nm : Str) : firstSeg (trashKey nm) = str ".trash" := by
  unfold trashKey
  rw [firstSeg_append]
  exact firstSeg_noSlash _ (by decide)

lemma ne_trashKey_of_firstSeg {k nm : Str} (h : firstSeg k ≠ str ".trash") :
    k ≠ trashKey nm := by
  intro he
  exact h (he ▸ firstSeg_trashKey nm)

lemma ne_trashKey_self (nm : Str) : nm ≠ trashKey nm := by
  intro h
  have := congrArg List.length h
  simp [trashKey, str] at this
  omega

/-- C3: restore_from_trash re-creates the trashed object at the bucket root
(the original path is never retained by the trash key), removes the trash
key, silently overwrites any same-named object at the destination (upsert),
and leaves every other key untouched. -/
theorem restore_from_trash_spec (s : Store) (nm : Str) (c : Content)
    (hns : NoSlash nm) (hc : s.find (trashKey nm) = some c) :
    (restore_from_trash s (trashKey nm)).1 = true ∧
    ((restore_from_trash s (trashKey nm)).2).find nm = some c ∧
    ((restore_from_trash s (trashKey nm)).2).find (trashKey nm) = none ∧
    ∀ j, j ≠ nm → j ≠ trashKey nm →
      ((restore_from_trash s (trashKey nm)).2).find j = s.find j := by
  have hbn : basename (trashKey nm) = nm := basename_trashKey nm hns
  have hne2 : nm ≠ trashKey nm := ne_trashKey_self nm
  have hred : restore_from_trash s (trashKey nm)
      = (true, (s.upsert nm c).removeKey (trashKey nm)) := by
    unfold restore_from_trash
    rw [hc, hbn]
  rw [hred]
  refine ⟨rfl, ?_, ?_, ?_⟩
  · rw [Store.find_removeKey_ne _ hne2, Store.find_upsert_self]
  · exact Store.find_removeKey_self _ _
  · intro j hj1 hj2
    rw [Store.find_removeKey_ne _ hj2, Store.find_upsert_ne _ _ hj1]

/-- Concrete store for the restore witness: a trashed a.txt plus a
same-named file already sitting at the root. -/
def rsWStore : Store := ⟨[(str "a.txt", [9]), (trashKey (str "a.txt"), [7])]⟩

/-- Witness for C3: restoring .trash/a.txt over an existing root a.txt
overwrites it with the trashed bytes. -/
theorem restore_from_trash_spec_witness :
    ((restore_from_trash rsWStore (trashKey (str "a.txt"))).2).find (str "a.txt")
      = some [7] :=
  (restore_from_trash_spec rsWStore (str "a.txt") [7] (by decide) (by decide)).2.1

/-- C9: trashing two distinct files whose basenames coincide writes both to
the same trash key with upsert, so the second move_to_trash silently
overwrites the first trashed copy: afterwards the single trash object holds
the second file's bytes and both originals are gone. -/
theorem move_to_trash_same_basename_overwrites
    (s : Store) (k1 k2 : Str) (c1 c2 : Content)
    (h1 : s.find k1 = some c1) (h2 : s.find k2 = some c2)
    (hne : k1 ≠ k2) (hbn : basename k1 = basename k2)
    (ht1 : firstSeg k1 ≠ str ".trash") (ht2 : firstSeg k2 ≠ str ".trash") :
    (move_to_trash s k1).1 = true ∧
    (move_to_trash (move_to_trash s k1).2 k2).1 = true ∧
    ((move_to_trash (move_to_trash s k1).2 k2).2).find (trashKey (basename k2))
      = some c2 ∧
    ((move_to_trash (move_to_trash s k1).2 k2).2).find k1 = none ∧
    ((move_to_trash (move_to_trash s k1).2 k2).2).find k2 = none ∧
    ∀ c, (trashKey (basename k2), c) ∈
        ((move_to_trash (move_to_trash s k1).2 k2).2).objs → c = c2 := by
  have hk1t : k1 ≠ trashKey (basename k2) := ne_trashKey_of_firstSeg ht1
  have hk2t : k2 ≠ trashKey (basename k2) := ne_trashKey_of_firstSeg ht2
  have hred1 : move_to_trash s k1
      = (true, (s.upsert (trashKey (basename k2)) c1).removeKey k1) := by
    unfold move_to_trash
    rw [h1, hbn]
  have hs1 : ((s.upsert (trashKey (basename k2)) c1).removeKey k1).find k2 = some c2 := by
    rw [Store.find_removeKey_ne _ (fun h => hne h.symm),
        Store.find_upsert_ne _ _ hk2t, h2]
  have hred2 : move_to_trash ((s.upsert (trashKey (basename k2)) c1).removeKey k1) k2
      = (true, ((((s.upsert (trashKey (basename k2)) c1).removeKey k1).upsert
          (trashKey (basename k2)) c2).removeKey k2)) := by
    unfold move_to_trash
    rw [hs1]
  rw [hred1]
  refine ⟨rfl, ?_, ?_, ?_, ?_, ?_⟩
  · rw [hred2]
  · rw [hred2]
    rw [Store.find_removeKey_ne _ (fun h => hk2t h.symm), Store.find_upsert_self]
  · rw [hred2]
    rw [Store.find_removeKey_ne _ hne, Store.find_upsert_ne _ _ hk1t,
        Store.find_removeKey_self]
  · rw [hred2]
    exact Store.find_removeKey_self _ _
  · rw [hred2]
    intro c hc
    have hc2 := mem_of_mem_eraseKey hc
    rcases List.mem_append.mp hc2 with hmem | hmem
    · exact absurd hmem not_mem_eraseKey_self
    · exact congrArg Prod.snd (List.mem_singleton.mp hmem)

/-- Concrete store for the C9 witness: two nested files both named x.txt. -/
def sameBaseStore : Store := ⟨[(str "a/x.txt", [1]), (str "b/x.txt", [2])]⟩

/-- Witness for C9: after trashing a/x.txt then b/x.txt, the single trash
object .trash/x.txt holds the bytes of b/x.txt. -/
theorem move_to_trash_same_basename_overwrites_witness :
    ((move_to_trash (move_to_trash sameBaseStore (str "a/x.txt")).2
        (str "b/x.txt")).2).find (trashKey (basename (str "b/x.txt")))
      = some [2] :=
  (move_to_trash_same_basename_overwrites sameBaseStore
    (str "a/x.txt") (str "b/x.txt") [1] [2]
    (by decide) (by decide) (by decide) (by decide) (by decide) (by decide)).2.2.1

/-- C1 (amended): for a file stored at the bucket root, trash followed by
restore of the returned trash key followed by listing the original parent
(the root) reproduces the original content bytes and displayName. For files
with a non-empty parent the original claim fails (see the counterexample):
restore always re-creates the object at the root. -/
theorem trash_restore_list_root_round_trip (s : Store) (k : Str) (c : Content)
    (hns : NoSlash k) (hne : k ≠ []) (hc : s.find k = some c) :
    (move_to_trash s k).1 = true ∧
    (restore_from_trash (move_to_trash s k).2 (trashKey k)).1 = true ∧
    ((restore_from_trash (move_to_trash s k).2 (trashKey k)).2).find k = some c ∧
    (⟨k, false, k, some c.length⟩ : Entry) ∈
      list_files ((restore_from_trash (move_to_trash s k).2 (trashKey k)).2) [] := by
  have hbk : basename k = k := basename_noSlash k hns
  have hbt : basename (trashKey k) = k := basename_trashKey k hns
  have hkt : k ≠ trashKey k := ne_trashKey_self k
  have hred1 : move_to_trash s k = (true, (s.upsert (trashKey k) c).removeKey k) := by
    unfold move_to_trash
    rw [hc, hbk]
  have hfs1 : ((s.upsert (trashKey k) c).removeKey k).find (trashKey k) = some c := by
    rw [Store.find_removeKey_ne _ (fun h => hkt h.symm), Store.find_upsert_self]
  have hred2 : restore_from_trash ((s.upsert (trashKey k) c).removeKey k) (trashKey k)
      = (true, ((((s.upsert (trashKey k) c).removeKey k).upsert k c).removeKey
          (trashKey k))) := by
    unfold restore_from_trash
    rw [hfs1, hbt]
  rw [hred1]
  refine ⟨rfl, ?_, ?_, ?_⟩
  · rw [hred2]
  · rw [hred2, Store.find_removeKey_ne _ hkt, Store.find_upsert_self]
  · rw [hred2]
    have hmem : (k, c) ∈
        (((((s.upsert (trashKey k) c).removeKey k).upsert k c).removeKey
          (trashKey k))).objs :=
      Store.mem_removeKey_of_ne hkt (Store.mem_upsert_self _ k c)
    refine mem_list_files_iff.mpr (List.mem_map.mpr ⟨⟨k, false, c.length⟩, ?_, rfl⟩)
    exact mem_sbList_file hmem (underDir?_nil k) hne hns

/-- Concrete store for the C1 witness: a single root file a.txt. -/
def rootFileStore : Store := ⟨[(str "a.txt", [1, 2])]⟩

/-- Witness for C1 (amended) at the root file a.txt. -/
theorem trash_restore_list_root_round_trip_witness :
    ((restore_from_trash (move_to_trash rootFileStore (str "a.txt")).2
        (trashKey (str "a.txt"))).2).find (str "a.txt") = some [1, 2] :=
  (trash_restore_list_root_round_trip rootFileStore (str "a.txt") [1, 2]
    (by decide) (by decide) (by decide)).2.2.1

/-- Concrete store for the C1 counterexample: one file nested under docs. -/
def nestedFileStore : Store := ⟨[(str "docs/a.txt", [1, 2, 3])]⟩

/-- Counterexample to C1 as stated: trash then restore of docs/a.txt both
report success, yet listing the original parent docs afterwards is empty —
the restored object sits at the root instead. -/
theorem trash_restore_loses_original_parent :
    (move_to_trash nestedFileStore (str "docs/a.txt")).1 = true ∧
    (restore_from_trash (move_to_trash nestedFileStore (str "docs/a.txt")).2
        (trashKey (str "a.txt"))).1 = true ∧
    list_files ((restore_from_trash (move_to_trash nestedFileStore
        (str "docs/a.txt")).2 (trashKey (str "a.txt"))).2) (str "docs") = [] ∧
    ((restore_from_trash (move_to_trash nestedFileStore (str "docs/a.txt")).2
        (trashKey (str "a.txt"))).2).find (str "a.txt") = some [1, 2, 3] := by
  decide

lemma uploadNew_some_elim {s : Store} {k : Str} {c : Content} {s1 : Store}
    (h : s.uploadNew k c = some s1) :
    s.find k = none ∧ s1 = ⟨s.objs ++ [(k, c)]⟩ := by
  unfold Store.uploadNew at h
  cases hv : s.find k with
  | none =>
    rw [hv] at h
    exact ⟨rfl, (Option.some_inj.mp h).symm⟩
  | some c0 =>
    rw [hv] at h
    cases h

lemma find_uploadNew_other {s : Store} {k : Str} {c : Content} {s1 : Store} {j : Str}
    (h : s.uploadNew k c = some s1) (hj : j ≠ k) : s1.find j = s.find j := by
  obtain ⟨_, rfl⟩ := uploadNew_some_elim h
  show findC (s.objs ++ [(k, c)]) j = findC s.objs j
  cases hv : findC s.objs j with
  | some c0 => exact findC_append_of_some _ hv
  | none =>
    rw [findC_append_of_none _ hv]
    simp [findC, hj]

/-- C10: rename_file issues its store calls in the fixed order
download-original, upload-to-new-key, remove-original (the attempted-call
trace is always an initial segment of that sequence, and exactly the full
sequence on success), and whenever it returns False the original key still
holds its original content — a failed rename never deletes the original. -/
theorem rename_file_order_and_failure_safety
    (fail : StoreOp → Bool) (s : Store) (oldPath newName : Str) :
    (∃ ext, (rename_file fail s oldPath newName).2.2 ++ ext =
      [StoreOp.download oldPath,
       StoreOp.upload (resolve (parentOf oldPath) newName),
       StoreOp.remove oldPath]) ∧
    ((rename_file fail s oldPath newName).1 = true →
      (rename_file fail s oldPath newName).2.2 =
      [StoreOp.download oldPath,
       StoreOp.upload (resolve (parentOf oldPath) newName),
       StoreOp.remove oldPath]) ∧
    ((rename_file fail s oldPath newName).1 = false →
      ((rename_file fail s oldPath newName).2.1).find oldPath = s.find oldPath) := by
  by_cases h1 : fail (StoreOp.download oldPath) = true
  · have hred : rename_file fail s oldPath newName
        = (false, s, [StoreOp.download oldPath]) := by
      unfold rename_file
      rw [if_pos h1]
    rw [hred]
    exact ⟨⟨[StoreOp.upload (resolve (parentOf oldPath) newName),
             StoreOp.remove oldPath], rfl⟩,
           fun h => absurd h (by simp), fun _ => rfl⟩
  · cases hfind : s.find oldPath with
    | none =>
      have hred : rename_file fail s oldPath newName
          = (false, s, [StoreOp.download oldPath]) := by
        unfold rename_file
        rw [if_neg h1]
        simp only [hfind]
      rw [hred]
      exact ⟨⟨[StoreOp.upload (resolve (parentOf oldPath) newName),
               StoreOp.remove oldPath], rfl⟩,
             fun h => absurd h (by simp), fun _ => hfind⟩
    | some c =>
      by_cases h2 : fail (StoreOp.upload (resolve (parentOf oldPath) newName)) = true
      · have hred : rename_file fail s oldPath newName
            = (false, s, [StoreOp.download oldPath,
                          StoreOp.upload (resolve (parentOf oldPath) newName)]) := by
          unfold rename_file
          rw [if_neg h1]
          simp only [hfind]
          rw [if_pos h2]
        rw [hred]
        exact ⟨⟨[StoreOp.remove oldPath], rfl⟩,
               fun h => absurd h (by simp), fun _ => hfind⟩
      · cases hup : s.uploadNew (resolve (parentOf oldPath) newName) c with
        | none =>
          have hred : rename_file fail s oldPath newName
              = (false, s, [StoreOp.download oldPath,
                            StoreOp.upload (resolve (parentOf oldPath) newName)]) := by
            unfold rename_file
            rw [if_neg h1]
            simp only [hfind]
            rw [if_neg h2]
            simp only [hup]
          rw [hred]
          exact ⟨⟨[StoreOp.remove oldPath], rfl⟩,
                 fun h => absurd h (by simp), fun _ => hfind⟩
        | some s1 =>
          have hnp : oldPath ≠ resolve (parentOf oldPath) newName := by
            intro he
            have hn := (uploadNew_some_elim hup).1
            rw [← he, hfind] at hn
            cases hn
          by_cases h3 : fail (StoreOp.remove oldPath) = true
          · have hred : rename_file fail s oldPath newName
                = (false, s1, [StoreOp.download oldPath,
                               StoreOp.upload (resolve (parentOf oldPath) newName),
                               StoreOp.remove oldPath]) := by
              unfold rename_file
              rw [if_neg h1]
              simp only [hfind]
              rw [if_neg h2]
              simp only [hup]
              rw [if_pos h3]
            rw [hred]
            refine ⟨⟨[], List.append_nil _⟩, fun h => absurd h (by simp), fun _ => ?_⟩
            rw [show (false, s1, [StoreOp.download oldPath,
                  StoreOp.upload (resolve (parentOf oldPath) newName),
                  StoreOp.remove oldPath]).2.1 = s1 from rfl]
            rw [find_uploadNew_other hup hnp, hfind]
          · have hred : rename_file fail s oldPath newName
                = (true, s1.removeKey oldPath,
                   [StoreOp.download oldPath,
                    StoreOp.upload (resolve (parentOf oldPath) newName),
                    StoreOp.remove oldPath]) := by
              unfold rename_file
              rw [if_neg h1]
              simp only [hfind]
              rw [if_neg h2]
              simp only [hup]
              rw [if_neg h3]
            rw [hred]
            exact ⟨⟨[], List.append_nil _⟩, fun _ => rfl,
                   fun h => absurd h (by simp)⟩

/-- Failure oracle for the C10 witness: only the remove call raises. -/
def failRemoveOracle : StoreOp → Bool := fun op =>
  match op with
  | StoreOp.remove _ => true
  | _ => false

/-- Concrete store for the C10 witness. -/
def renameWStore : Store := ⟨[(str "a.txt", [5])]⟩

/-- Witness for C10: when the final remove raises, rename_file returns False
and the original a.txt still holds its bytes. -/
theorem rename_file_order_and_failure_safety_witness :
    ((rename_file failRemoveOracle renameWStore (str "a.txt") (str "b.txt")).2.1).find
      (str "a.txt") = some [5] :=
  ((rename_file_order_and_failure_safety failRemoveOracle renameWStore
      (str "a.txt") (str "b.txt")).2.2 (by decide)).trans (by decide)

/-- C5 (amended): create_folder only ever uploads the placeholder object.
When the placeholder key is absent it succeeds, adds exactly the empty
placeholder, and leaves every other key — in particular all existing
descendants — untouched. When the placeholder already exists the duplicate
upload raises and create_folder reports False with the store unchanged, so
an already-populated folder that still carries its placeholder makes
createFolder report an error rather than succeed silently. -/
theorem create_folder_spec (s : Store) (folderName parent : Str) :
    ((s.find (resolve parent folderName ++ str "/.keep") = none →
      (create_folder s folderName parent).1 = true ∧
      ((create_folder s folderName parent).2).find
        (resolve parent folderName ++ str "/.keep") = some [] ∧
      ∀ j, j ≠ resolve parent folderName ++ str "/.keep" →
        ((create_folder s folderName parent).2).find j = s.find j)) ∧
    (∀ c0, s.find (resolve parent folderName ++ str "/.keep") = some c0 →
      create_folder s folderName parent = (false, s)) := by
  constructor
  · intro h
    have hred : create_folder s folderName parent
        = (true, ⟨s.objs ++ [(resolve parent folderName ++ str "/.keep", [])]⟩) := by
      unfold create_folder Store.uploadNew
      rw [h]
    rw [hred]
    refine ⟨rfl, ?_, ?_⟩
    · show findC (s.objs ++ [(resolve parent folderName ++ str "/.keep", [])])
        (resolve parent folderName ++ str "/.keep") = some []
      rw [findC_append_of_none _ h]
      simp [findC]
    · intro j hj
      show findC (s.objs ++ [(resolve parent folderName ++ str "/.keep", [])]) j
        = findC s.objs j
      cases hv : findC s.objs j with
      | some c0 => exact findC_append_of_some _ hv
      | none =>
        rw [findC_append_of_none _ hv]
        simp [findC, hj]
  · intro c0 h
    unfold create_folder Store.uploadNew
    rw [h]

/-- Concrete store for the C5 witness: folder f has real content and no
placeholder yet. -/
def populatedNoKeepStore : Store := ⟨[(str "f/a.txt", [1])]⟩

/-- Witness for C5 (amended): create_folder on the populated folder f
succeeds and leaves the descendant f/a.txt untouched. -/
theorem create_folder_spec_witness :
    (create_folder populatedNoKeepStore (str "f") []).1 = true ∧
    ((create_folder populatedNoKeepStore (str "f") []).2).find (str "f/a.txt")
      = some [1] :=
  ⟨((create_folder_spec populatedNoKeepStore (str "f") []).1 (by decide)).1,
   (((create_folder_spec populatedNoKeepStore (str "f") []).1 (by decide)).2.2
      (str "f/a.txt") (by decide)).trans (by decide)⟩

/-- Concrete store for the C5 counterexample: folder f has real content and
also already carries its placeholder. -/
def populatedKeepStore : Store := ⟨[(str "f/a.txt", [1]), (str "f/.keep", [])]⟩

/-- Counterexample to C5 as stated: the folder f has real content f/a.txt,
yet create_folder reports an error (False) because the placeholder f/.keep
already exists and the duplicate upload without upsert raises. -/
theorem create_folder_populated_reports_error :
    create_folder populatedKeepStore (str "f") [] = (false, populatedKeepStore) := by
  decide

/-- C4 (amended): delete_folder lists the folder once (immediate children
only) and removes folder/name for each row, so afterwards no direct child
object of the folder remains; but keys nested two or more levels below the
folder are untouched (the remove of a synthetic folder row's key deletes no
object), and keys outside the folder are untouched. The original claim that
every key with the folder as prefix is deleted fails for nested descendants
(see the counterexample); it does hold for a folder containing only direct
files, such as one with 3 files. -/
theorem delete_folder_spec (s : Store) (p : Str) (hp : p ≠ []) :
    (delete_folder s p).1 = true ∧
    (∀ r, r ≠ [] → NoSlash r →
      ((delete_folder s p).2).find (p ++ '/' :: r) = none) ∧
    (∀ rest, '/' ∈ rest →
      ((delete_folder s p).2).find (p ++ '/' :: rest) = s.find (p ++ '/' :: rest)) ∧
    (∀ k, underDir? p k = none → ((delete_folder s p).2).find k = s.find k) := by
  refine ⟨rfl, ?_, ?_, ?_⟩
  · intro r hne hns
    show ((((sbList s p).map (fun it => p ++ '/' :: it.name)).foldl
      Store.removeKey s)).find (p ++ '/' :: r) = none
    by_cases hmem : (p ++ '/' :: r) ∈ (sbList s p).map (fun it => p ++ '/' :: it.name)
    · exact find_foldl_removeKey_of_mem _ s _ hmem
    · rw [find_foldl_removeKey_of_not_mem _ s _ hmem]
      cases hv : s.find (p ++ '/' :: r) with
      | none => rfl
      | some c =>
        exfalso
        apply hmem
        refine List.mem_map.mpr ⟨⟨r, false, c.length⟩, ?_, rfl⟩
        exact mem_sbList_file (findC_some_mem hv) (underDir?_append p r hp) hne hns
  · intro rest hs
    show ((((sbList s p).map (fun it => p ++ '/' :: it.name)).foldl
      Store.removeKey s)).find (p ++ '/' :: rest) = s.find (p ++ '/' :: rest)
    apply find_foldl_removeKey_of_not_mem
    intro hmem
    obtain ⟨it, hit, he⟩ := List.mem_map.mp hmem
    have hname : it.name = rest := by
      have := List.append_cancel_left he
      exact (List.cons_eq_cons.mp this).2
    exact sbList_name_noSlash hit (hname ▸ hs)
  · intro k hk
    show ((((sbList s p).map (fun it => p ++ '/' :: it.name)).foldl
      Store.removeKey s)).find k = s.find k
    apply find_foldl_removeKey_of_not_mem
    intro hmem
    obtain ⟨it, hit, he⟩ := List.mem_map.mp hmem
    rw [← he, underDir?_append p it.name hp] at hk
    cases hk

/-- Concrete store for the C4 witness: folder f with exactly 3 files. -/
def threeFileStore : Store :=
  ⟨[(str "f/a", [1]), (str "f/b", [2]), (str "f/c", [3])]⟩

/-- Witness for C4 (amended): deleting folder f removes all 3 direct file
objects and leaves the prefix listing of f empty. -/
theorem delete_folder_spec_witness :
    ((delete_folder threeFileStore (str "f")).2).find (str "f/a") = none ∧
    ((delete_folder threeFileStore (str "f")).2).find (str "f/b") = none ∧
    ((delete_folder threeFileStore (str "f")).2).find (str "f/c") = none ∧
    sbList ((delete_folder threeFileStore (str "f")).2) (str "f") = [] :=
  ⟨(delete_folder_spec threeFileStore (str "f") (by decide)).2.1
      (str "a") (by decide) (by decide),
   (delete_folder_spec threeFileStore (str "f") (by decide)).2.1
      (str "b") (by decide) (by decide),
   (delete_folder_spec threeFileStore (str "f") (by decide)).2.1
      (str "c") (by decide) (by decide),
   by decide⟩

/-- Concrete store for the C4 counterexample: a key nested two levels below
folder f. -/
def nestedFolderStore : Store := ⟨[(str "f/sub/x.txt", [1])]⟩

/-- Counterexample to C4 as stated: deleting folder f that contains only the
nested key f/sub/x.txt reports success yet deletes nothing — the nested
object survives and the prefix listing of f is still non-empty. -/
theorem delete_folder_leaves_nested_keys :
    delete_folder nestedFolderStore (str "f") = (true, nestedFolderStore) ∧
    ((delete_folder nestedFolderStore (str "f")).2).find (str "f/sub/x.txt")
      = some [1] ∧
    sbList ((delete_folder nestedFolderStore (str "f")).2) (str "f") ≠ [] := by
  decide

lemma trashKey_inj {a b : Str} (h : trashKey a = trashKey b) : a = b := by
  have := List.append_cancel_left h
  exact (List.cons_eq_cons.mp this).2

lemma removeLoop_true_iff (fail : Str → Bool) (s : Store) (ks : List Str) :
    (removeLoop fail s ks).1 = true ↔ ∀ k ∈ ks, fail k = false := by
  induction ks generalizing s with
  | nil => simp [removeLoop]
  | cons a ks ih =>
    cases hf : fail a with
    | true => simp [removeLoop, hf]
    | false => simp [removeLoop, hf, ih (s.removeKey a)]

lemma removeLoop_eq_foldl (fail : Str → Bool) (s : Store) (ks : List Str)
    (h : ∀ k ∈ ks, fail k = false) :
    removeLoop fail s ks = (true, ks.foldl Store.removeKey s) := by
  induction ks generalizing s with
  | nil => rfl
  | cons a ks ih =>
    have ha := h a (List.mem_cons_self a ks)
    rw [List.foldl_cons]
    show (if fail a = true then (false, s)
      else removeLoop fail (s.removeKey a) ks) = _
    rw [ha, if_neg (by simp)]
    exact ih (s.removeKey a) (fun k hk => h k (List.mem_cons_of_mem a hk))

/-- C2 (amended): empty_trash deletes every trashed item and returns True
exactly when no per-item delete fails (so a fully successful run leaves 0
trashed items, given that all trash keys sit directly under .trash as the
app creates them); but when some delete fails it stops at the first failure
and returns one undifferentiated False — it does not aggregate or report
the failed subset per item (see the counterexample). -/
theorem empty_trash_spec (fail : Str → Bool) (s : Store)
    (hdirect : ∀ k c, (k, c) ∈ s.objs → ∀ rest, k = trashKey rest → NoSlash rest) :
    ((empty_trash_f fail s).1 = true ↔
      ∀ it ∈ sbList s (str ".trash"), fail (trashKey it.name) = false) ∧
    ((∀ it ∈ sbList s (str ".trash"), fail (trashKey it.name) = false) →
      ∀ rest, rest ≠ [] → ((empty_trash_f fail s).2).find (trashKey rest) = none) := by
  constructor
  · rw [show (empty_trash_f fail s) = removeLoop fail s
      ((sbList s (str ".trash")).map (fun it => trashKey it.name)) from rfl,
      removeLoop_true_iff]
    constructor
    · intro h it hit
      exact h (trashKey it.name) (List.mem_map.mpr ⟨it, hit, rfl⟩)
    · intro h k hk
      obtain ⟨it, hit, he⟩ := List.mem_map.mp hk
      exact he ▸ h it hit
  · intro h rest hrest
    have hmap : ∀ k ∈ (sbList s (str ".trash")).map (fun it => trashKey it.name),
        fail k = false := by
      intro k hk
      obtain ⟨it, hit, he⟩ := List.mem_map.mp hk
      exact he ▸ h it hit
    have hred : empty_trash_f fail s
        = (true, ((sbList s (str ".trash")).map
            (fun it => trashKey it.name)).foldl Store.removeKey s) :=
      removeLoop_eq_foldl fail s _ hmap
    rw [hred]
    by_cases hmem : trashKey rest ∈
        (sbList s (str ".trash")).map (fun it => trashKey it.name)
    · exact find_foldl_removeKey_of_mem _ s _ hmem
    · rw [find_foldl_removeKey_of_not_mem _ s _ hmem]
      cases hv : s.find (trashKey rest) with
      | none => rfl
      | some c =>
        exfalso
        apply hmem
        have hns : NoSlash rest := hdirect _ c (findC_some_mem hv) rest rfl
        refine List.mem_map.mpr ⟨⟨rest, false, c.length⟩, ?_, rfl⟩
        exact mem_sbList_file (findC_some_mem hv)
          (underDir?_append (str ".trash") rest (by decide)) hrest hns

/-- Concrete store for the C2 witness: one trashed item. -/
def oneTrashStore : Store := ⟨[(trashKey (str "a"), [1])]⟩

/-- Witness for C2 (amended): with no failures, emptying the one-item trash
leaves the trash key deleted. -/
theorem empty_trash_spec_witness :
    ((empty_trash_f (fun _ => false) oneTrashStore).2).find (trashKey (str "a"))
      = none :=
  (empty_trash_spec (fun _ => false) oneTrashStore
    (by
      intro k c hm rest he
      have hk : k = trashKey (str "a") :=
        congrArg Prod.fst (List.mem_singleton.mp hm)
      have : rest = str "a" := trashKey_inj ((hk ▸ he).symm ▸ rfl)
      rw [this]
      decide)).2
    (fun _ _ => rfl) (str "a") (by decide)

/-- Concrete store for the C2 counterexample: two trashed items. -/
def twoTrashStore : Store :=
  ⟨[(trashKey (str "a.txt"), [1]), (trashKey (str "b.txt"), [2])]⟩

/-- Failure oracle for the C2 counterexample: only the first item's delete
fails. -/
def failFirstOracle : Str → Bool := fun k => k = trashKey (str "a.txt")

/-- Counterexample to C2 as stated: only a.txt's delete fails, yet
empty_trash stops there and returns a single False with the whole trash
untouched — b.txt, whose delete never failed, is still trashed, and the
Bool result carries no per-item failure report. -/
theorem empty_trash_no_per_item_aggregation :
    empty_trash_f failFirstOracle twoTrashStore = (false, twoTrashStore) ∧
    failFirstOracle (trashKey (str "b.txt")) = false ∧
    ((empty_trash_f failFirstOracle twoTrashStore).2).find (trashKey (str "b.txt"))
      = some [2] := by
  decide

/-- Concrete store for the C8 example: entries b.txt (file), A (folder,
witnessed by its placeholder), a.txt (file). -/
def exListStore : Store :=
  ⟨[(str "b.txt", [1]), (str "A/.keep", []), (str "a.txt", [2, 3])]⟩

/-- C8: every list_files result is sorted by the folders-first,
case-insensitive-name order and is a permutation of the underlying listing
rows — list_files is a pure function of the store, so repeated calls on
identical input are deterministic, and the modelled sort is stable; on the
example entries b.txt (file), A (folder), a.txt (file), the listing comes
back in the order A, a.txt, b.txt. -/
theorem list_files_sorted_spec (s : Store) (p : Str) :
    List.Sorted entryLE (list_files s p) ∧
    (list_files s p).Perm ((sbList s p).map (entryOfItem p)) ∧
    list_files exListStore []
      = [⟨str "A", true, str "A", none⟩,
         ⟨str "a.txt", false, str "a.txt", some 2⟩,
         ⟨str "b.txt", false, str "b.txt", some 1⟩] := by
  refine ⟨List.sorted_insertionSort entryLE _, List.perm_insertionSort entryLE _, ?_⟩
  decide

lemma firstSeg_resolve (p n : Str) (hp : p ≠ []) :
    firstSeg (resolve p n) = firstSeg p := by
  unfold resolve
  rw [if_neg hp]
  exact firstSeg_append p n

lemma resolve_ne_nil {p nm : Str} (hnm : nm ≠ []) : resolve p nm ≠ [] := by
  unfold resolve
  by_cases hp : p = []
  · rw [if_pos hp]
    exact hnm
  · rw [if_neg hp]
    intro h
    exact hp (List.append_eq_nil.mp h).1

lemma underDir?_resolve_keep (p nm : Str) :
    underDir? p (resolve p nm ++ str "/.keep") = some (nm ++ '/' :: str ".keep") := by
  by_cases hp : p = []
  · rw [hp]
    rw [underDir?_nil]
    rfl
  · have h1 : resolve p nm ++ str "/.keep" = p ++ '/' :: (nm ++ '/' :: str ".keep") := by
      unfold resolve
      rw [if_neg hp]
      simp [List.append_assoc]
      rfl
    rw [h1, underDir?_append _ _ hp]

lemma startsWithDot_of_firstSeg_trash {k : Str} (h : firstSeg k = str ".trash") :
    startsWithDot k = true := by
  obtain ⟨t, ht⟩ := List.takeWhile_prefix (fun c => c ≠ '/') (l := k)
  rw [show k.takeWhile (fun c => c ≠ '/') = firstSeg k from rfl, h] at ht
  rw [← ht]
  rfl

/-- C6 (amended): for every listed path whose first segment is not the
reserved .trash name, the rendered listing contains no entry whose path
lies under the .trash prefix and no dot-named placeholder entry such as
.keep; and a folder holding only its placeholder object is still reported
as a folder in its parent's rendered listing while its own rendered listing
is empty. Listing the .trash path itself does expose trash entries (see the
counterexample); this backend keeps no config object in the bucket, so no
config-key filtering exists or is needed. -/
theorem rendered_listing_reserved_and_placeholder (s : Store) (p nm : Str)
    (hp : firstSeg p ≠ str ".trash")
    (hnm1 : NoSlash nm) (hnm2 : nm ≠ []) (hnm3 : startsWithDot nm = false) :
    (∀ e ∈ rendered_file_list s p, firstSeg e.path ≠ str ".trash") ∧
    (∀ e ∈ rendered_file_list s p, startsWithDot e.name = false) ∧
    (∀ c0, s.find (resolve p nm ++ str "/.keep") = some c0 →
      (⟨nm, true, resolve p nm, none⟩ : Entry) ∈ rendered_file_list s p) ∧
    ((∀ k c, (k, c) ∈ s.objs → underDir? (resolve p nm) k ≠ none →
        k = resolve p nm ++ str "/.keep") →
      rendered_file_list s (resolve p nm) = []) := by
  refine ⟨?_, ?_, ?_, ?_⟩
  · intro e he
    have hdot : startsWithDot e.name = false := by
      have := (List.mem_filter.mp he).2
      simpa using this
    obtain ⟨it, hit, heq⟩ :=
      List.mem_map.mp (mem_list_files_iff.mp (List.mem_filter.mp he).1)
    by_cases hpe : p = []
    · intro hcon
      have hpath : e.path = it.name := by
        rw [← heq]
        show resolve p it.name = it.name
        rw [hpe]
        rfl
      rw [hpath] at hcon
      have h1 : startsWithDot it.name = true := startsWithDot_of_firstSeg_trash hcon
      have h2 : e.name = it.name := by
        rw [← heq]
        rfl
      rw [h2, h1] at hdot
      cases hdot
    · intro hcon
      have hpath : e.path = resolve p it.name := by
        rw [← heq]
        rfl
      rw [hpath, firstSeg_resolve p it.name hpe] at hcon
      exact hp hcon
  · intro e he
    have := (List.mem_filter.mp he).2
    simpa using this
  · intro c0 hc
    have hmem := findC_some_mem hc
    have hs : '/' ∈ nm ++ '/' :: str ".keep" :=
      List.mem_append_right _ (List.mem_cons_self _ _)
    have hitem := mem_sbList_folder hmem (underDir?_resolve_keep p nm) hs
    have hfs : firstSeg (nm ++ '/' :: str ".keep") = nm :=
      takeWhile_append_slash nm (str ".keep") hnm1
    rw [hfs] at hitem
    refine List.mem_filter.mpr ⟨?_, ?_⟩
    · exact mem_list_files_iff.mpr (List.mem_map.mpr ⟨⟨nm, true, 0⟩, hitem, rfl⟩)
    · simp [hnm3]
  · intro honly
    have hfp : resolve p nm ≠ [] := resolve_ne_nil hnm2
    rw [List.eq_nil_iff_forall_not_mem]
    intro e he
    have hdot := (List.mem_filter.mp he).2
    obtain ⟨it, hit, heq⟩ :=
      List.mem_map.mp (mem_list_files_iff.mp (List.mem_filter.mp he).1)
    obtain ⟨k, c, r, hm, hu, hcase⟩ := sbList_elim hit
    have hk : k = resolve p nm ++ str "/.keep" :=
      honly k c hm (by rw [hu]; exact fun hcon => Option.noConfusion hcon)
    have hu2 : underDir? (resolve p nm) k = some (str ".keep") := by
      rw [hk]
      rw [show resolve p nm ++ str "/.keep"
          = resolve p nm ++ '/' :: str ".keep" from rfl]
      exact underDir?_append _ _ hfp
    have hr : r = str ".keep" := Option.some_inj.mp (hu.symm.trans hu2)
    rcases hcase with ⟨_, hn, _, _, _⟩ | ⟨_, hsl, _⟩
    · have hname : startsWithDot e.name = true := by
        rw [← heq]
        show startsWithDot it.name = true
        rw [hn, hr]
        rfl
      simp [hname] at hdot
    · rw [hr] at hsl
      exact absurd hsl (by decide)

/-- Concrete store for the C6 witness: a folder docs/emptyf holding only its
placeholder. -/
def keepOnlyStore : Store := ⟨[(str "docs/emptyf/.keep", [])]⟩

/-- Witness for C6 (amended): the placeholder-only folder emptyf shows up as
a folder in the rendered listing of docs. -/
theorem rendered_listing_reserved_and_placeholder_witness :
    (⟨str "emptyf", true, resolve (str "docs") (str "emptyf"), none⟩ : Entry)
      ∈ rendered_file_list keepOnlyStore (str "docs") :=
  (rendered_listing_reserved_and_placeholder keepOnlyStore (str "docs")
    (str "emptyf") (by decide) (by decide) (by decide) (by decide)).2.2.1
    [] (by decide)

/-- Concrete store for the C6 counterexample: one trashed file. -/
def trashedOnlyStore : Store := ⟨[(trashKey (str "a.txt"), [1])]⟩

/-- Counterexample to C6 as stated: listing the path .trash itself renders
an entry whose path .trash/a.txt lies under the reserved .trash prefix. -/
theorem rendered_listing_exposes_trash_path :
    rendered_file_list trashedOnlyStore (str ".trash")
      = [⟨str "a.txt", false, str ".trash/a.txt", some 1⟩] := by
  decide
